import Mathlib

/-!
Verification of the `cas` content-addressable store (Go sources in `src/cas.go`:
the `cas` façade package, the `local` on-disk storage backend, and the
directory importer).

Shallow embedding conventions:
* bytes are `Nat`s; byte streams are `List Nat`;
* the on-disk `blobs/` directory is an association list from file names to
  `BlobFile` records (contents, permission mode, and the `cas.schema.type`
  xattr value);
* fallible operations return their result in `Except Err _` and are paired
  with the filesystem state they leave behind;
* operations that can only fail due to the environment (chmod/remove during
  crash-artifact cleanup) take explicit boolean oracles (`cOk`, `rOk`) that
  say whether the corresponding OS call succeeds.
-/

/-- Modelled from the spec (§4.1): the content hash. The hash algorithm
itself (SHA-256, from the `types` package, not under `src/`) is modelled as an
injective digest function; the spec only relies on determinism and
collision-freedom, both of which hold for this stand-in.
`none` is the Go zero `types.Ref` ("ref not supplied"). -/
structure Ref where
  data : Option (List Nat)
deriving DecidableEq, Repr

/-- Go `types.Ref.Zero()`: the all-zero/default ref. -/
def Ref.isZero (r : Ref) : Bool :=
  r.data == none

/-- The zero ref (Go `types.Ref{}`). -/
def zeroRef : Ref := ⟨none⟩

/-- Modelled from the spec (§4.1): `types.BytesRef` / `types.Hash` digest of a
byte string, as an injective stand-in for SHA-256. -/
def hashBytes (b : List Nat) : Ref := ⟨some b⟩

/-- The empty ref: the hash of the empty byte string (Go `types.Ref.Empty()`). -/
def emptyRef : Ref := hashBytes []

/-- Go `types.Ref.Empty()`. -/
def Ref.isEmpty (r : Ref) : Bool :=
  r == emptyRef

/-- Modelled from the spec (§3): the canonical, algorithm-tagged string form of
a ref (Go `types.Ref.String()`, not under `src/`); digests render as
comma-separated decimal numbers after the algorithm tag. -/
def Ref.toStr (r : Ref) : String :=
  match r.data with
  | none => "zero"
  | some d => "sha256:" ++ String.intercalate "," (d.map toString)

/-- Go `types.SizedRef`. -/
structure SizedRef where
  ref : Ref
  size : Nat
deriving DecidableEq, Repr

/-- Error kinds surfaced by the store (spec §7); `generic msg` stands for an
untyped Go `error` built with `fmt.Errorf`/`errors.New`. -/
inductive Err where
  | notFound
  | invalidRef
  | refMismatch (exp got : Ref)
  | notSchema
  | blobCompleted
  | blobDiscarded
  | parseErr
  | generic (msg : String)
deriving DecidableEq, Repr

deriving instance DecidableEq for Except

/-- Modelled from the spec (§4.1): `types.ParseRef` (not under `src/`), the
inverse of `Ref.toStr` on canonical strings. -/
def parseRef (s : String) : Except Err Ref :=
  if s.startsWith "sha256:" then
    let rest := (s.drop 7)
    if rest = "" then .ok ⟨some []⟩
    else
      match (rest.splitOn ",").mapM String.toNat? with
      | some d => .ok ⟨some d⟩
      | none => .error .parseErr
  else .error .parseErr

/-- A string is a canonical ref string iff parsing it and re-rendering gives
the string back. -/
def isCanonical (s : String) : Bool :=
  (parseRef s).toOption.map Ref.toStr == some s

/-- One file in the `blobs/` directory: contents, permission mode, and the
value of the `cas.schema.type` xattr (`none` = attribute not set). -/
structure BlobFile where
  content : List Nat
  mode : Nat
  xattrType : Option String
deriving DecidableEq, Repr

/-- Association-list helpers for the `blobs/` directory. -/
def findFile : List (String × BlobFile) → String → Option BlobFile
  | [], _ => none
  | (k, f) :: rest, n => if k = n then some f else findFile rest n

def setFile : List (String × BlobFile) → String → BlobFile → List (String × BlobFile)
  | [], n, f => [(n, f)]
  | (k, g) :: rest, n, f =>
    if k = n then (n, f) :: rest else (k, g) :: setFile rest n f

def delFile (l : List (String × BlobFile)) (n : String) : List (String × BlobFile) :=
  l.filter (fun kv => kv.1 != n)

def chmodFile (l : List (String × BlobFile)) (n : String) (m : Nat) :
    List (String × BlobFile) :=
  l.map (fun kv => if kv.1 = n then (kv.1, { kv.2 with mode := m }) else kv)

/-- The on-disk state of the `blobs/` directory of one repository. -/
structure FS where
  blobs : List (String × BlobFile)
deriving DecidableEq, Repr

def FS.lookup (fs : FS) (n : String) : Option BlobFile :=
  findFile fs.blobs n

def FS.set (fs : FS) (n : String) (f : BlobFile) : FS :=
  ⟨setFile fs.blobs n f⟩

def FS.del (fs : FS) (n : String) : FS :=
  ⟨delFile fs.blobs n⟩

def FS.chmod (fs : FS) (n : String) (m : Nat) : FS :=
  ⟨chmodFile fs.blobs n m⟩

/-- `local.Storage.removeIfInvalid` (src/cas.go): quick check for an invalid
blob (an empty file stored under a non-empty ref) and removal of it.
`size` is `fi.Size()`; `cOk`/`rOk` say whether `os.Chmod`/`os.Remove` succeed.
On cleanup failure the code reports `storage.ErrRefMissmatch{Exp: ref, Got:
types.BytesRef(nil)}` (whose `Got` is the empty ref). -/
def removeIfInvalid (fs : FS) (size : Nat) (ref : Ref) (cOk rOk : Bool) :
    FS × Except Err Bool :=
  if size ≠ 0 ∨ ref.isEmpty then (fs, .ok false)
  else if ¬cOk then (fs, .error (.refMismatch ref emptyRef))
  else
    let fs1 := fs.chmod ref.toStr 0o666
    if ¬rOk then (fs1, .error (.refMismatch ref emptyRef))
    else (fs1.del ref.toStr, .ok true)

/-- `local.Storage.StatBlob` (src/cas.go). -/
def Local.StatBlob (fs : FS) (ref : Ref) (cOk rOk : Bool) :
    FS × Except Err Nat :=
  if ref.isZero then (fs, .error .invalidRef)
  else
    match fs.lookup ref.toStr with
    | none => (fs, .error .notFound)
    | some f =>
      match removeIfInvalid fs f.content.length ref cOk rOk with
      | (fs1, .error e) => (fs1, .error e)
      | (fs1, .ok true) => (fs1, .error .notFound)
      | (fs1, .ok false) => (fs1, .ok f.content.length)

/-- `local.Storage.FetchBlob` (src/cas.go): returns the blob's bytes and size. -/
def Local.FetchBlob (fs : FS) (ref : Ref) (cOk rOk : Bool) :
    FS × Except Err (List Nat × Nat) :=
  if ref.isZero then (fs, .error .invalidRef)
  else
    match fs.lookup ref.toStr with
    | none => (fs, .error .notFound)
    | some f =>
      match removeIfInvalid fs f.content.length ref cOk rOk with
      | (fs1, .error e) => (fs1, .error e)
      | (fs1, .ok true) => (fs1, .error .notFound)
      | (fs1, .ok false) => (fs1, .ok (f.content, f.content.length))

/-- Modelled from the spec (§4.4, `store_blob` fallback path): the local
backend's `StoreBlob` (its body is not under `src/`; only the façade wrapper
is): open a writer, copy everything, complete, check the computed ref against
`expected` when one was given, commit. Committed blobs land read-only. -/
def Local.StoreBlob (fs : FS) (exp : Ref) (r : List Nat) :
    FS × Except Err SizedRef :=
  let sr : SizedRef := ⟨hashBytes r, r.length⟩
  if ¬exp.isZero ∧ sr.ref ≠ exp then
    (fs, .error (.refMismatch exp sr.ref))
  else
    (fs.set sr.ref.toStr ⟨r, 0o444, none⟩, .ok sr)

/-- `cas.Storage.StatBlob` (src/cas.go, façade): empty refs are answered
without consulting the backend. -/
def CAS.StatBlob (fs : FS) (ref : Ref) (cOk rOk : Bool) :
    FS × Except Err Nat :=
  if ref.isEmpty then (fs, .ok 0)
  else Local.StatBlob fs ref cOk rOk

/-- `cas.Storage.FetchBlob` (src/cas.go, façade): empty blobs are generated. -/
def CAS.FetchBlob (fs : FS) (ref : Ref) (cOk rOk : Bool) :
    FS × Except Err (List Nat × Nat) :=
  if ref.isEmpty then (fs, .ok ([], 0))
  else Local.FetchBlob fs ref cOk rOk

/-- `cas.Storage.StoreBlob` (src/cas.go, façade). The reader is the byte
stream `r`; the final `Nat` is the number of bytes read from it. -/
def CAS.StoreBlob (fs : FS) (exp : Ref) (r : List Nat) (cOk rOk : Bool) :
    FS × Except Err SizedRef × Nat :=
  if exp.isEmpty then
    match r with
    | [] => (fs, .ok ⟨exp, 0⟩, 0)
    | _ :: _ => (fs, .error (.generic "expected empty blob"), 1)
  else if ¬exp.isZero then
    match CAS.StatBlob fs exp cOk rOk with
    | (fs1, .ok sz) => (fs1, .ok ⟨exp, sz⟩, 0)
    | (fs1, .error _) =>
      match Local.StoreBlob fs1 exp r with
      | (fs2, out) => (fs2, out, r.length)
  else
    match Local.StoreBlob fs exp r with
    | (fs2, out) => (fs2, out, r.length)

/-- `local.Storage.FetchSchema` (src/cas.go): `NotSchema` is returned only
when the `cas.schema.type` xattr reads back successfully as the empty string;
in every other case (tag present and non-empty, attribute missing, or the
file absent so the xattr read fails) the call falls through to `FetchBlob`. -/
def Local.FetchSchema (fs : FS) (ref : Ref) (cOk rOk : Bool) :
    FS × Except Err (List Nat × Nat) :=
  if ref.isZero then (fs, .error .invalidRef)
  else
    match (fs.lookup ref.toStr).bind BlobFile.xattrType with
    | some "" => (fs, .error .notSchema)
    | _ => Local.FetchBlob fs ref cOk rOk

/-- `local.blobWriter` (src/cas.go) together with its `genTmpFile` temp file
and the streaming hasher `storage.Hash()` it wraps. `hwBuf`/`hwDone` are the
hasher's absorbed bytes and completed flag (modelled from the spec §4.1:
`write` after `complete` fails with a completed-error; `complete` finalizes
the hash, idempotently); `sr` is the writer's cached `w.sr`; `file` is the
temp file's contents, `none` once `w.f == nil`. -/
structure BlobWriter where
  hwBuf : List Nat
  hwDone : Bool
  sr : SizedRef
  file : Option (List Nat)
deriving DecidableEq, Repr

/-- `local.Storage.BeginBlob`: fresh temp file, fresh hasher. -/
def BlobWriter.fresh : BlobWriter :=
  ⟨[], false, ⟨zeroRef, 0⟩, some []⟩

/-- `blobWriter.Write` (src/cas.go): the hasher absorbs first (failing if
already completed), then the temp file is written; `w.f == nil` yields
`storage.ErrBlobCompleted`. -/
def BlobWriter.write (w : BlobWriter) (p : List Nat) :
    BlobWriter × Except Err Nat :=
  if w.hwDone then (w, .error .blobCompleted)
  else
    let w1 := { w with hwBuf := w.hwBuf ++ p }
    match w1.file with
    | none => (w1, .error .blobCompleted)
    | some c => ({ w1 with file := some (c ++ p) }, .ok p.length)

/-- `blobWriter.Complete` (src/cas.go): finalize the hash; `w.sr` is set only
the first time (it is kept if already non-zero). -/
def BlobWriter.complete (w : BlobWriter) : BlobWriter × Except Err SizedRef :=
  let hsr : SizedRef := ⟨hashBytes w.hwBuf, w.hwBuf.length⟩
  let w1 := { w with hwDone := true }
  if ¬w1.sr.ref.isZero then (w1, .ok hsr)
  else ({ w1 with sr := hsr }, .ok hsr)

/-- `blobWriter.Close` (src/cas.go): release the temp file without
committing; a no-op when the file is already gone. -/
def BlobWriter.close (w : BlobWriter) : BlobWriter × Except Err Unit :=
  match w.file with
  | none => (w, .ok ())
  | some _ => ({ w with file := none }, .ok ())

/-- `blobWriter.Commit` (src/cas.go) composed with `genTmpFile.Commit`:
requires the temp file to still exist (else `storage.ErrBlobDiscarded`),
completes implicitly if needed, then chmods the temp file to `0444` and
renames it to `blobs/<ref.String()>`. -/
def BlobWriter.commit (w : BlobWriter) (fs : FS) :
    BlobWriter × FS × Except Err Unit :=
  match w.file with
  | none => (w, fs, .error .blobDiscarded)
  | some c =>
    let w1 := if w.sr.ref.isZero then (w.complete).1 else w
    ({ w1 with file := none },
     fs.set w1.sr.ref.toStr ⟨c, 0o444, none⟩,
     .ok ())

/-- Apply a sequence of `Write` calls, tracking whether every one of them
succeeded. -/
def BlobWriter.writeList (w : BlobWriter) : List (List Nat) → BlobWriter × Bool
  | [] => (w, true)
  | p :: ps =>
    match w.write p with
    | (w1, .ok _) => match w1.writeList ps with
      | (w2, ok) => (w2, ok)
    | (w1, .error _) => match w1.writeList ps with
      | (w2, _) => (w2, false)

/-- One entry of the `blobs/` directory listing as seen by the iterators:
`os.FileInfo` data plus the environment oracles used if this entry needs
crash-artifact cleanup. -/
structure DirInfo where
  name : String
  size : Nat
  regular : Bool
  cOk : Bool
  rOk : Bool
deriving DecidableEq, Repr

/-- The name ordering used by `sort.Slice(infos, ...)` in `dirIterator.Next`. -/
def infoLe (a b : DirInfo) : Prop := a.name ≤ b.name

instance : DecidableRel infoLe := fun a b =>
  decidable_of_iff (a.name.toList ≤ b.name.toList)
    (String.le_iff_toList_le).symm

instance : IsTotal DirInfo infoLe := ⟨fun a b => le_total a.name b.name⟩

instance : IsTrans DirInfo infoLe := ⟨fun _ _ _ h h2 => le_trans h h2⟩

/-- The loop of `dirIterator.Next` (src/cas.go), run to exhaustion over the
(already sorted) listing: skip non-regular entries, stop with the iterator
error on an unparsable file name, run `removeIfInvalid` (stopping on a
cleanup error, silently skipping healed entries), and otherwise yield the
`SizedRef`. Returns all yielded items and the final iterator error. -/
def drain (fs : FS) : List DirInfo → List SizedRef × Option Err
  | [] => ([], none)
  | i :: rest =>
    if i.regular = false then drain fs rest
    else
      match parseRef i.name with
      | .error e => ([], some e)
      | .ok ref =>
        match removeIfInvalid fs i.size ref i.cOk i.rOk with
        | (_, .error e) => ([], some e)
        | (fs1, .ok true) => drain fs1 rest
        | (fs1, .ok false) =>
          match drain fs1 rest with
          | (out, err) => (⟨ref, i.size⟩ :: out, err)

/-- `local.Storage.IterateBlobs` + `dirIterator.Next` (src/cas.go): the
listing is sorted by file name ascending, then drained. -/
def iterateBlobs (fs : FS) (entries : List DirInfo) :
    List SizedRef × Option Err :=
  drain fs (List.insertionSort infoLe entries)

/-- An entry on which `dirIterator.Next` stops with an error: a regular file
whose name fails ref parsing, or a crash artifact whose cleanup fails. -/
def infoFatal (i : DirInfo) : Bool :=
  i.regular &&
    (match parseRef i.name with
     | .error _ => true
     | .ok ref =>
       decide (i.size = 0) && !ref.isEmpty && (!i.cOk || !i.rOk))

/-- `schema.DirEntry` (spec §3): one entry of a directory listing. -/
structure DirEntry where
  ref : Ref
  size : Nat
  count : Nat
  name : String
deriving DecidableEq, Repr

/-- Modelled from the spec (§4.2): deterministic canonical byte encoding of a
ref inside a schema object (the `schema` codec is not under `src/`). -/
def encRef (r : Ref) : List Nat :=
  match r.data with
  | none => [0]
  | some d => 1 :: d.length :: d

/-- Modelled from the spec (§4.2): length-prefixed string encoding. -/
def encStr (s : String) : List Nat :=
  s.length :: s.toList.map Char.toNat

/-- Modelled from the spec (§4.2): canonical encoding of one `DirEntry`. -/
def encDirEntry (e : DirEntry) : List Nat :=
  encRef e.ref ++ e.size :: e.count :: encStr e.name

/-- `schema.List` (spec §3 and the commented-out stats aggregation in
`storeDirJoin`): a page of refs to same-typed objects, with the `Count`/`Size`
statistics fields that the TODO-disabled aggregation would fill. -/
structure ListNode where
  elem : String
  list : List Ref
  count : Nat
  size : Nat
deriving DecidableEq, Repr

/-- The registered type tag of `schema.DirEntry` (`typeDirEnt` in src/cas.go). -/
def tagDirEnt : String := "cas:DirEntry"

/-- The schema objects the directory importer stores. -/
inductive SchemaObj where
  | inlineList (items : List DirEntry)
  | listNode (node : ListNode)
deriving DecidableEq, Repr

/-- Modelled from the spec (§4.2): `schema.Encode`, a deterministic canonical
byte sequence; the type tag leads, payloads are length-prefixed. -/
def encodeObj : SchemaObj → List Nat
  | .inlineList items => 1 :: items.length :: (items.map encDirEntry).flatten
  | .listNode m =>
    2 :: (encStr m.elem ++ m.count :: m.size :: m.list.length ::
      (m.list.map encRef).flatten)

/-- The `SizedRef` produced by `cas.Storage.StoreSchema` (src/cas.go):
`exp := types.BytesRef(buf)` and `StoreBlob` always reports `exp` back as the
ref. (When a blob of the same name already exists on disk, `StoreBlob`'s
deduplication reports the on-disk size instead of `buf`'s length; no claim
depends on that size, so the size here is the encoding's length.) -/
def storeSchemaRef (o : SchemaObj) : SizedRef :=
  let b := encodeObj o
  ⟨hashBytes b, b.length⟩

/-- A source directory tree handed to `storeDir`; the order of `children` is
the filesystem enumeration order (`Readdir`). -/
inductive FTree where
  | file (name : String) (content : List Nat)
  | dir (name : String) (children : List FTree)
deriving Repr

def FTree.name : FTree → String
  | .file n _ => n
  | .dir n _ => n

/-- The ordering `sort.Slice(base, ...)` in `storeDir` sorts by (`Name`). -/
def nameLe (a b : DirEntry) : Prop := a.name ≤ b.name

instance : DecidableRel nameLe := fun a b =>
  decidable_of_iff (a.name.toList ≤ b.name.toList)
    (String.le_iff_toList_le).symm

instance : IsTotal DirEntry nameLe := ⟨fun a b => le_total a.name b.name⟩

instance : IsTrans DirEntry nameLe := ⟨fun _ _ _ h h2 => le_trans h h2⟩

/-- The sort of collected entries in `storeDir` (src/cas.go line 1012). -/
def sortEntries (l : List DirEntry) : List DirEntry :=
  List.insertionSort nameLe l

/-- `cas.Storage.storeDirList` (src/cas.go): encode the entries as one
`InlineList<DirEntry>` blob and summarize them into a `DirEntry` with
`Count = Σ (child.Count+1)` and `Size = Σ child.Size`. Returns the stored
object as well, as the head of the emission log. -/
def storeDirList (list : List DirEntry) : SchemaObj × SizedRef × DirEntry :=
  let cnt := list.foldl (fun a e => a + (e.count + 1)) 0
  let size := list.foldl (fun a e => a + e.size) 0
  let o := SchemaObj.inlineList list
  let sr := storeSchemaRef o
  (o, sr, ⟨sr.ref, size, cnt, ""⟩)

/-- The first loop of `storeDir`'s large-directory branch (src/cas.go lines
1023-1048): slice the sorted entries into pages of up to `F`, store each page
as an `InlineList<DirEntry>`, accumulate the page refs in `cur`, and flush
`cur` as a `schema.List` node whenever it reaches `F` refs or the input is
exhausted. Returns the emission log, the `List` nodes of the first level, and
their refs. (`max F 1` = `F` for the source's `F = 1024`; the `max` only
totalizes the degenerate `F = 0`.) -/
def leafPass (F : Nat) (cur : List Ref) : List DirEntry →
    List SchemaObj × List ListNode × List Ref
  | [] => ([], [], [])
  | b :: bs =>
    let page := (b :: bs).take (max F 1)
    let rest := (b :: bs).drop (max F 1)
    let pres := storeDirList page
    let cur1 := cur ++ [pres.2.1.ref]
    if F ≤ cur1.length ∨ rest.isEmpty then
      let m : ListNode := ⟨tagDirEnt, cur1, 0, 0⟩
      let msr := storeSchemaRef (SchemaObj.listNode m)
      let t := leafPass F [] rest
      (pres.1 :: SchemaObj.listNode m :: t.1, m :: t.2.1, msr.ref :: t.2.2)
    else
      let t := leafPass F cur1 rest
      (pres.1 :: t.1, t.2.1, t.2.2)
termination_by l => l.length
decreasing_by
  all_goals simp only [List.length_drop, List.length_cons]; omega

/-- One round of the `for len(level) > 1` loop of `storeDir` (src/cas.go lines
1054-1070), i.e. repeated `storeDirJoin`: page the current level's nodes and
refs in lockstep groups of up to `F`, and join each group of refs into a new
`schema.List` node (stats aggregation is TODO-disabled, so `Count`/`Size`
stay zero). -/
def joinPass (F : Nat) (level : List ListNode) (refs : List Ref) :
    List SchemaObj × List ListNode × List Ref :=
  match level with
  | [] => ([], [], [])
  | l :: ls =>
    let page := (l :: ls).take (max F 1)
    let pref := refs.take page.length
    let m : ListNode := ⟨tagDirEnt, pref, 0, 0⟩
    let sr := storeSchemaRef (SchemaObj.listNode m)
    let t := joinPass F ((l :: ls).drop (max F 1)) (refs.drop page.length)
    (SchemaObj.listNode m :: t.1, m :: t.2.1, sr.ref :: t.2.2)
termination_by level.length
decreasing_by
  all_goals simp only [List.length_drop, List.length_cons]; omega

theorem joinPass_level_len (F : Nat) :
    ∀ n (level : List ListNode), level.length ≤ n →
      ∀ refs, ((joinPass F level refs).2.1).length ≤ level.length := by
  intro n
  induction n with
  | zero =>
    intro level h refs
    have : level = [] := List.length_eq_zero.mp (Nat.le_zero.mp h)
    subst this
    simp [joinPass]
  | succ n ih =>
    intro level h refs
    match level with
    | [] => simp [joinPass]
    | l :: ls =>
      rw [joinPass]
      simp only [List.length_cons]
      have hd : ((l :: ls).drop (max F 1)).length ≤ n := by
        simp only [List.length_drop, List.length_cons]
        simp only [List.length_cons] at h
        omega
      have := ih ((l :: ls).drop (max F 1)) hd (refs.drop ((l :: ls).take (max F 1)).length)
      simp only [List.length_drop, List.length_cons] at this ⊢
      omega

theorem joinPass_level_len_lt (F : Nat) (level : List ListNode) (refs : List Ref)
    (hF : 2 ≤ F) (hl : 2 ≤ level.length) :
    ((joinPass F level refs).2.1).length < level.length := by
  match level with
  | [] => simp at hl
  | l :: ls =>
    rw [joinPass]
    simp only [List.length_cons]
    have := joinPass_level_len F ((l :: ls).drop (max F 1)).length
      ((l :: ls).drop (max F 1)) le_rfl (refs.drop ((l :: ls).take (max F 1)).length)
    simp only [List.length_drop, List.length_cons] at this ⊢
    simp only [List.length_cons] at hl
    omega

/-- The `for len(level) > 1` loop of `storeDir` (src/cas.go lines 1049-1072),
iterated to a single root node. (The loop does not terminate for `F ≤ 1`; the
source's `F` is the constant `maxDirEntries = 1024`, and the model simply
stops in the degenerate case.) -/
def joinLevels (F : Nat) (level : List ListNode) (refs : List Ref) :
    List SchemaObj × List ListNode × List Ref :=
  if h : level.length ≤ 1 ∨ F ≤ 1 then ([], level, refs)
  else
    let p := joinPass F level refs
    let q := joinLevels F p.2.1 p.2.2
    (p.1 ++ q.1, q.2.1, q.2.2)
termination_by level.length
decreasing_by
  push_neg at h
  exact joinPass_level_len_lt F level refs (by omega) (by omega)

mutual

/-- `cas.Storage.storeDir` (src/cas.go lines 974-1083), over the in-memory
tree `cs` (the children of the directory, in enumeration order), generalized
over the fan-out `F` (the source fixes `F = maxDirEntries = 1024`, see
`storeDir`). Returns the log of schema objects passed to `StoreSchema`, the
`SizedRef` of the root blob, and the summary `DirEntry` (whose `Name` is left
empty, as in the source; the caller fills it in). The raw content blobs of
regular files are not schema objects and do not appear in the log. -/
def storeDirF (F : Nat) (cs : List FTree) : List SchemaObj × SizedRef × DirEntry :=
  let col := collectF F cs
  let base := sortEntries col.2
  if base.length ≤ F then
    let r := storeDirList base
    (col.1 ++ [r.1], r.2.1, r.2.2)
  else
    let lp := leafPass F [] base
    let jl := joinLevels F lp.2.1 lp.2.2
    let top := jl.2.1.headD ⟨tagDirEnt, [], 0, 0⟩
    let sr := storeSchemaRef (SchemaObj.listNode top)
    (col.1 ++ lp.1 ++ jl.1 ++ [SchemaObj.listNode top], sr,
     ⟨sr.ref, 0, 0, ""⟩)
termination_by (sizeOf cs, 1)

/-- The entry-collection loop of `storeDir` (src/cas.go lines 982-1011):
entries named `.cas` (`DefaultDir`) are skipped; subdirectories recurse;
regular files go through `storeAsFile`. -/
def collectF (F : Nat) : List FTree → List SchemaObj × List DirEntry
  | [] => ([], [])
  | c :: rest =>
    let t := collectF F rest
    if c.name = ".cas" then t
    else
      let e := storeEntry F c
      (e.1 ++ t.1, e.2 :: t.2)
termination_by cs => (sizeOf cs, 0)

/-- One collected entry: for a subdirectory, `storeDir`'s summary with `Ref`
and `Name` filled in (src/cas.go lines 996-1002); for a regular file,
`storeAsFile`'s `DirEntry` (src/cas.go lines 856-934) on the plain hashing
path: the model's source files carry no `cas.ref` xattr cache and the
reflink fast path is unavailable, so the file is hashed and its entry is
`DirEntry{Ref: hash(content), Size: len(content), Name: name}`. -/
def storeEntry (F : Nat) : FTree → List SchemaObj × DirEntry
  | .file n content => ([], ⟨hashBytes content, content.length, 0, n⟩)
  | .dir n children =>
    let d := storeDirF F children
    (d.1, { d.2.2 with ref := d.2.1.ref, name := n })
termination_by c => (sizeOf c, 0)

end

/-- `storeDir` as the source runs it: fan-out `maxDirEntries = 1024`. -/
def storeDir (cs : List FTree) : List SchemaObj × SizedRef × DirEntry :=
  storeDirF 1024 cs

/-- The ordering on sibling trees by entry name. -/
def treeNameLe (a b : FTree) : Prop := a.name ≤ b.name

instance : DecidableRel treeNameLe := fun a b =>
  decidable_of_iff (a.name.toList ≤ b.name.toList)
    (String.le_iff_toList_le).symm

mutual

/-- Canonical form of a tree: children recursively canonicalized and sorted
by name. Two enumerations of the same on-disk tree have the same canonical
form. -/
def FTree.canon : FTree → FTree
  | .file n c => .file n c
  | .dir n children =>
    .dir n (List.insertionSort treeNameLe (canonList children))

def canonList : List FTree → List FTree
  | [] => []
  | c :: rest => c.canon :: canonList rest

end

mutual

/-- Every directory of the tree has pairwise-distinct child names, as a real
filesystem guarantees. -/
def FTree.okNames : FTree → Bool
  | .file _ _ => true
  | .dir _ children =>
    decide ((children.map FTree.name).Nodup) && okNamesList children

def okNamesList : List FTree → Bool
  | [] => true
  | c :: rest => c.okNames && okNamesList rest

end

/-- The root ref produced by importing a path (`storeFilePath`, src/cas.go):
directories go through `storeDirF`, regular files through `storeAsFile`. -/
def dirRootRef (F : Nat) : FTree → Ref
  | .file _ content => hashBytes content
  | .dir _ children => (storeDirF F children).2.1.ref

theorem findFile_setFile_self (l : List (String × BlobFile)) (n : String)
    (f : BlobFile) : findFile (setFile l n f) n = some f := by
  induction l with
  | nil => simp [setFile, findFile]
  | cons kv rest ih =>
    by_cases h : kv.1 = n
    · simp [setFile, h, findFile]
    · simp [setFile, h, findFile, ih]

theorem findFile_delFile (l : List (String × BlobFile)) (n : String) :
    findFile (delFile l n) n = none := by
  induction l with
  | nil => simp [delFile, findFile]
  | cons kv rest ih =>
    by_cases h : kv.1 = n
    · simpa [delFile, h] using ih
    · simpa [delFile, h, findFile] using ih

/-- C5: for the empty ref, `StatBlob` answers size `0` and `FetchBlob` a
zero-length reader with size `0`, on any filesystem state and without
touching or changing it; and `StoreBlob` of the empty stream against the
empty ref succeeds without materializing anything on disk. -/
theorem emptyRef_lazy (fs : FS) (cOk rOk : Bool) :
    CAS.StatBlob fs emptyRef cOk rOk = (fs, .ok 0) ∧
    CAS.FetchBlob fs emptyRef cOk rOk = (fs, .ok ([], 0)) ∧
    CAS.StoreBlob fs emptyRef [] cOk rOk = (fs, .ok ⟨emptyRef, 0⟩, 0) := by
  refine ⟨?_, ?_, ?_⟩ <;>
    simp [CAS.StatBlob, CAS.FetchBlob, CAS.StoreBlob, Ref.isEmpty]

theorem writeList_from_clean (b : List Nat) (ps : List (List Nat)) :
    BlobWriter.writeList ⟨b, false, ⟨zeroRef, 0⟩, some b⟩ ps =
      (⟨b ++ ps.flatten, false, ⟨zeroRef, 0⟩, some (b ++ ps.flatten)⟩, true) := by
  induction ps generalizing b with
  | nil => simp [BlobWriter.writeList]
  | cons p ps ih =>
    have hw : BlobWriter.write ⟨b, false, ⟨zeroRef, 0⟩, some b⟩ p =
        (⟨b ++ p, false, ⟨zeroRef, 0⟩, some (b ++ p)⟩, .ok p.length) := by
      simp [BlobWriter.write]
    simp only [BlobWriter.writeList, hw, ih (b ++ p), List.flatten_cons,
      List.append_assoc]

/-- C1: a `BlobWriter` fed a sequence of `Write` calls (all of which succeed
from a fresh writer) and then committed lands, under `blobs/`, a file whose
name is the canonical string of the hash of exactly the bytes written, whose
contents are those bytes, and whose permission mode is read-only `0444`. -/
theorem blobWriter_commit_blob (ps : List (List Nat)) (fs : FS) :
    (BlobWriter.fresh.writeList ps).2 = true ∧
    ((BlobWriter.fresh.writeList ps).1.commit fs).2.2 = .ok () ∧
    FS.lookup ((BlobWriter.fresh.writeList ps).1.commit fs).2.1
        (hashBytes ps.flatten).toStr = some ⟨ps.flatten, 0o444, none⟩ := by
  have hW := writeList_from_clean [] ps
  simp only [List.nil_append] at hW
  have hfresh : BlobWriter.fresh = ⟨[], false, ⟨zeroRef, 0⟩, some []⟩ := rfl
  rw [hfresh, hW]
  refine ⟨rfl, ?_, ?_⟩ <;>
    simp [BlobWriter.commit, BlobWriter.complete, Ref.isZero, zeroRef,
      FS.lookup, FS.set, findFile_setFile_self]

/-- C2: a zero-byte file stored under a non-empty (and non-zero, as only such
refs name stored blobs) ref is a crash artifact: `StatBlob` and `FetchBlob`
remove it and report `NotFound`; and whatever the fate of the chmod/remove
cleanup, the caller gets `NotFound` or a `RefMismatch` error, never success. -/
theorem statFetch_heal_crash_artifact (fs : FS) (r : Ref) (f : BlobFile)
    (hz : r.isZero = false) (he : r.isEmpty = false)
    (hf : fs.lookup r.toStr = some f) (hc : f.content = []) :
    (CAS.StatBlob fs r true true).2 = .error .notFound ∧
    ((CAS.StatBlob fs r true true).1).lookup r.toStr = none ∧
    (CAS.FetchBlob fs r true true).2 = .error .notFound ∧
    ((CAS.FetchBlob fs r true true).1).lookup r.toStr = none ∧
    (∀ cOk rOk,
      (CAS.StatBlob fs r cOk rOk).2 = .error .notFound ∨
      (CAS.StatBlob fs r cOk rOk).2 = .error (.refMismatch r emptyRef)) ∧
    (∀ cOk rOk,
      (CAS.FetchBlob fs r cOk rOk).2 = .error .notFound ∨
      (CAS.FetchBlob fs r cOk rOk).2 = .error (.refMismatch r emptyRef)) := by
  have hf' : findFile fs.blobs r.toStr = some f := hf
  refine ⟨?_, ?_, ?_, ?_, ?_, ?_⟩
  · simp [CAS.StatBlob, Local.StatBlob, removeIfInvalid, he, hz, FS.lookup,
      hf', hc]
  · simp [CAS.StatBlob, Local.StatBlob, removeIfInvalid, he, hz, FS.lookup,
      hf', hc, FS.del, FS.chmod, findFile_delFile]
  · simp [CAS.FetchBlob, Local.FetchBlob, removeIfInvalid, he, hz, FS.lookup,
      hf', hc]
  · simp [CAS.FetchBlob, Local.FetchBlob, removeIfInvalid, he, hz, FS.lookup,
      hf', hc, FS.del, FS.chmod, findFile_delFile]
  · intro cOk rOk
    cases cOk <;> cases rOk <;>
      simp [CAS.StatBlob, Local.StatBlob, removeIfInvalid, he, hz, FS.lookup,
        hf', hc]
  · intro cOk rOk
    cases cOk <;> cases rOk <;>
      simp [CAS.FetchBlob, Local.FetchBlob, removeIfInvalid, he, hz, FS.lookup,
        hf', hc]

/-- C2 witness. -/
theorem statFetch_heal_crash_artifact_witness :
    (CAS.StatBlob ⟨[("sha256:5", ⟨[], 0o444, none⟩)]⟩ (hashBytes [5]) true true).2 =
      .error .notFound ∧
    ((CAS.StatBlob ⟨[("sha256:5", ⟨[], 0o444, none⟩)]⟩ (hashBytes [5]) true
      true).1).lookup (hashBytes [5]).toStr = none := by
  have h := statFetch_heal_crash_artifact ⟨[("sha256:5", ⟨[], 0o444, none⟩)]⟩
    (hashBytes [5]) ⟨[], 0o444, none⟩ (by decide) (by decide) (by decide) rfl
  exact ⟨h.1, h.2.1⟩

theorem statBlob_ok_fs_unchanged (fs : FS) (r : Ref) (cOk rOk : Bool) (sz : Nat)
    (h : (CAS.StatBlob fs r cOk rOk).2 = .ok sz) :
    (CAS.StatBlob fs r cOk rOk).1 = fs := by
  by_cases he : r.isEmpty
  · simp [CAS.StatBlob, he]
  · by_cases hz : r.isZero
    · simp [CAS.StatBlob, Local.StatBlob, he, hz] at h
    · rcases hl : fs.lookup r.toStr with _ | f
      · have hl0 : findFile fs.blobs r.toStr = none := hl
        simp [CAS.StatBlob, Local.StatBlob, he, hz, FS.lookup, hl0]
      · have hl' : findFile fs.blobs r.toStr = some f := hl
        by_cases hcontent : f.content = []
        · cases cOk <;> cases rOk <;>
            simp [CAS.StatBlob, Local.StatBlob, removeIfInvalid, he, hz,
              FS.lookup, hl', hcontent] at h
        · simp [CAS.StatBlob, Local.StatBlob, removeIfInvalid, he, hz,
            FS.lookup, hl', hcontent]

/-- C3: when the expected ref is non-zero, non-empty, and `StatBlob` reports
it present with size `sz`, `StoreBlob` deduplicates: it returns
`SizedRef{r, sz}` at once, reads zero bytes from the reader, and leaves the
filesystem untouched (so re-storing an existing blob is idempotent). -/
theorem storeBlob_dedup (fs : FS) (r : Ref) (rdr : List Nat) (sz : Nat)
    (cOk rOk : Bool) (hz : r.isZero = false) (he : r.isEmpty = false)
    (hs : (CAS.StatBlob fs r cOk rOk).2 = .ok sz) :
    CAS.StoreBlob fs r rdr cOk rOk = (fs, .ok ⟨r, sz⟩, 0) := by
  have hfs := statBlob_ok_fs_unchanged fs r cOk rOk sz hs
  rcases hst : CAS.StatBlob fs r cOk rOk with ⟨fs1, res⟩
  rw [hst] at hs hfs
  simp at hs hfs
  subst hs hfs
  simp [CAS.StoreBlob, he, hz, hst]

/-- C3 witness. -/
theorem storeBlob_dedup_witness :
    CAS.StoreBlob ⟨[("sha256:5", ⟨[5], 0o444, none⟩)]⟩ (hashBytes [5]) [9, 9]
      true true = (⟨[("sha256:5", ⟨[5], 0o444, none⟩)]⟩, .ok ⟨hashBytes [5], 1⟩, 0) :=
  storeBlob_dedup ⟨[("sha256:5", ⟨[5], 0o444, none⟩)]⟩ (hashBytes [5]) [9, 9] 1
    true true (by decide) (by decide) (by decide)

/-- Whether an `Except` result carries a structured `RefMismatch` error. -/
def Except.errIsMismatch {α : Type} : Except Err α → Bool
  | .error (.refMismatch _ _) => true
  | _ => false

/-- C4 counterexample: storing a non-empty stream against the empty expected
ref fails with the untyped error `"expected empty blob"`
(`fmt.Errorf` in src/cas.go line 100), not with a structured
`storage.ErrRefMissmatch` as the claim states. -/
theorem storeBlob_emptyExp_error_not_refMismatch :
    (CAS.StoreBlob ⟨[]⟩ emptyRef [7] true true).2.1 =
      .error (.generic "expected empty blob") ∧
    ((CAS.StoreBlob ⟨[]⟩ emptyRef [7] true true).2.1).errIsMismatch = false := by
  constructor <;> rfl

/-- C4 (amended): `StoreBlob` with the empty expected ref reads at most one
byte; an empty stream yields `(empty ref, 0)` with nothing written, and a
non-empty stream fails with the generic "expected empty blob" error (an
untyped error, not a structured `RefMismatch`), after reading one byte and
writing nothing. -/
theorem storeBlob_emptyExp (fs : FS) (r : List Nat) (cOk rOk : Bool) :
    (CAS.StoreBlob fs emptyRef r cOk rOk).2.2 ≤ 1 ∧
    (r = [] → CAS.StoreBlob fs emptyRef r cOk rOk = (fs, .ok ⟨emptyRef, 0⟩, 0)) ∧
    (∀ b bs, r = b :: bs →
      CAS.StoreBlob fs emptyRef r cOk rOk =
        (fs, .error (.generic "expected empty blob"), 1)) := by
  refine ⟨?_, ?_, ?_⟩
  · cases r <;> simp [CAS.StoreBlob, Ref.isEmpty]
  · intro hr; subst hr; simp [CAS.StoreBlob, Ref.isEmpty]
  · intro b bs hr; subst hr; simp [CAS.StoreBlob, Ref.isEmpty]

/-- C4 witness. -/
theorem storeBlob_emptyExp_witness :
    CAS.StoreBlob ⟨[]⟩ emptyRef [7] true true =
      (⟨[]⟩, .error (.generic "expected empty blob"), 1) :=
  (storeBlob_emptyExp ⟨[]⟩ [7] true true).2.2 7 [] rfl

/-- C9 counterexample: for a valid on-disk blob whose `cas.schema.type` xattr
is absent, `FetchSchema` does not return `NotSchema` (as the claim's
"whenever a non-empty cached tag is absent" requires): it falls through to
`FetchBlob` and returns the blob's bytes and size. -/
theorem fetchSchema_absent_xattr_fetches :
    Local.FetchSchema ⟨[("sha256:1", ⟨[1], 0o444, none⟩)]⟩ (hashBytes [1])
        true true =
      (⟨[("sha256:1", ⟨[1], 0o444, none⟩)]⟩, .ok ([1], 1)) ∧
    ((Local.FetchSchema ⟨[("sha256:1", ⟨[1], 0o444, none⟩)]⟩ (hashBytes [1])
        true true).2).errIsMismatch = false ∧
    (Local.FetchSchema ⟨[("sha256:1", ⟨[1], 0o444, none⟩)]⟩ (hashBytes [1])
        true true).2 ≠ .error .notSchema := by
  refine ⟨rfl, rfl, ?_⟩
  decide

/-- C9 (amended): for a non-zero ref, `FetchSchema` returns `NotSchema`
exactly when the `cas.schema.type` xattr reads back successfully as the empty
tag; in every other case — a non-empty cached tag, or no readable cached tag
at all — it falls through to `FetchBlob`, returning the blob's bytes and size
when a valid blob is present. -/
theorem fetchSchema_cached_tag (fs : FS) (r : Ref) (cOk rOk : Bool)
    (hz : r.isZero = false) :
    ((fs.lookup r.toStr).bind BlobFile.xattrType = some "" →
      Local.FetchSchema fs r cOk rOk = (fs, .error .notSchema)) ∧
    (∀ t, (fs.lookup r.toStr).bind BlobFile.xattrType = some t → t ≠ "" →
      Local.FetchSchema fs r cOk rOk = Local.FetchBlob fs r cOk rOk) ∧
    ((fs.lookup r.toStr).bind BlobFile.xattrType = none →
      Local.FetchSchema fs r cOk rOk = Local.FetchBlob fs r cOk rOk) := by
  refine ⟨?_, ?_, ?_⟩
  · intro hx
    simp [Local.FetchSchema, hz, hx]
  · intro t hx ht
    simp only [Local.FetchSchema, hz, Bool.false_eq_true, if_false, hx]
    match t, ht with
    | t, ht =>
      cases t with
      | mk l =>
        match l with
        | [] => exact absurd rfl ht
        | c :: cs => rfl
  · intro hx
    simp [Local.FetchSchema, hz, hx]

/-- C9 witness. -/
theorem fetchSchema_cached_tag_witness :
    Local.FetchSchema ⟨[("sha256:2", ⟨[2], 0o444, some ""⟩)]⟩ (hashBytes [2])
        true true =
      (⟨[("sha256:2", ⟨[2], 0o444, some ""⟩)]⟩, .error .notSchema) :=
  (fetchSchema_cached_tag ⟨[("sha256:2", ⟨[2], 0o444, some ""⟩)]⟩
    (hashBytes [2]) true true rfl).1 (by decide)

theorem removeIfInvalid_snd (fs fs' : FS) (size : Nat) (ref : Ref)
    (c k : Bool) :
    (removeIfInvalid fs size ref c k).2 = (removeIfInvalid fs' size ref c k).2 := by
  simp only [removeIfInvalid]
  split_ifs <;> rfl

theorem removeIfInvalid_ok_false (fs : FS) (size : Nat) (ref : Ref)
    (c k : Bool) (h : (removeIfInvalid fs size ref c k).2 = .ok false) :
    size ≠ 0 ∨ ref.isEmpty = true := by
  by_cases hc : size ≠ 0 ∨ ref.isEmpty
  · exact hc
  · exfalso
    revert h
    cases c <;> cases k <;> simp [removeIfInvalid, hc]


theorem removeIfInvalid_not_fatal (fs : FS) (j : DirInfo) (ref : Ref)
    (hf : infoFatal j = false) (hreg : j.regular = true)
    (hp : parseRef j.name = .ok ref) :
    (removeIfInvalid fs j.size ref j.cOk j.rOk).2 = .ok true ∨
    (removeIfInvalid fs j.size ref j.cOk j.rOk).2 = .ok false := by
  simp only [infoFatal, hreg, hp, Bool.true_and] at hf
  by_cases hc : j.size ≠ 0 ∨ ref.isEmpty
  · right; simp [removeIfInvalid, hc]
  · push_neg at hc
    rcases hc with ⟨h0, hne⟩
    have hbe : ref.isEmpty = false := by
      revert hne; cases ref.isEmpty <;> simp
    cases hcOk : j.cOk with
    | false => simp [h0, hbe, hcOk] at hf
    | true =>
      cases hrOk : j.rOk with
      | false => simp [h0, hbe, hcOk, hrOk] at hf
      | true =>
        left
        simp [removeIfInvalid, h0, hbe, hcOk, hrOk]

theorem drain_nil (fs : FS) : drain fs [] = ([], none) := rfl

theorem drain_cons (fs : FS) (i : DirInfo) (rest : List DirInfo) :
    drain fs (i :: rest) =
      (if i.regular = false then drain fs rest
       else
        match parseRef i.name with
        | .error e => ([], some e)
        | .ok ref =>
          match removeIfInvalid fs i.size ref i.cOk i.rOk with
          | (_, .error e) => ([], some e)
          | (fs1, .ok true) => drain fs1 rest
          | (fs1, .ok false) =>
            match drain fs1 rest with
            | (out, err) => (⟨ref, i.size⟩ :: out, err)) := rfl

theorem drain_fs_irrel (l : List DirInfo) : ∀ fs fs', drain fs l = drain fs' l := by
  induction l with
  | nil => intro fs fs'; rfl
  | cons i rest ih =>
    intro fs fs'
    rw [drain_cons, drain_cons]
    by_cases hreg : i.regular = false
    · rw [if_pos hreg, if_pos hreg, ih fs fs']
    · rw [if_neg hreg, if_neg hreg]
      rcases hp : parseRef i.name with e | ref
      · rfl
      · dsimp only
        have h2 := removeIfInvalid_snd fs fs' i.size ref i.cOk i.rOk
        rcases h1 : removeIfInvalid fs i.size ref i.cOk i.rOk with ⟨fs1, res⟩
        rcases h1' : removeIfInvalid fs' i.size ref i.cOk i.rOk with ⟨fs1', res'⟩
        rw [h1, h1'] at h2
        simp only at h2
        subst h2
        cases res with
        | error e => rfl
        | ok b =>
          cases b with
          | true => dsimp only; exact ih fs1 fs1'
          | false => dsimp only; rw [ih fs1 fs1']

theorem isCanonical_toStr (s : String) (r : Ref)
    (hp : parseRef s = .ok r) (hc : isCanonical s = true) :
    r.toStr = s := by
  have hc' : ((parseRef s).toOption.map Ref.toStr == some s) = true := hc
  rw [hp] at hc'
  have := eq_of_beq hc'
  simpa [Except.toOption] using this

theorem drain_names_sublist (l : List DirInfo)
    (h : ∀ i ∈ l, i.regular = true → isCanonical i.name = true) :
    ∀ fs, ((drain fs l).1.map (fun sr => sr.ref.toStr)).Sublist
      (l.map DirInfo.name) := by
  induction l with
  | nil => intro fs; rw [drain_nil]; simp
  | cons i rest ih =>
    intro fs
    have hrest : ∀ j ∈ rest, j.regular = true → isCanonical j.name = true :=
      fun j hj => h j (List.mem_cons_of_mem i hj)
    rw [drain_cons]
    by_cases hreg : i.regular = false
    · rw [if_pos hreg]
      exact (ih hrest fs).cons i.name
    · rw [if_neg hreg]
      have hreg' : i.regular = true := by
        revert hreg; cases i.regular <;> simp
      rcases hp : parseRef i.name with e | ref
      · simp
      · dsimp only
        rcases h1 : removeIfInvalid fs i.size ref i.cOk i.rOk with ⟨fs1, res⟩
        cases res with
        | error e => simp
        | ok b =>
          cases b with
          | true =>
            dsimp only
            exact (ih hrest fs1).cons i.name
          | false =>
            dsimp only
            simp only [List.map_cons]
            have hname : ref.toStr = i.name :=
              isCanonical_toStr i.name ref hp (h i (List.mem_cons_self i rest) hreg')
            rw [hname]
            exact (ih hrest fs1).cons₂ i.name

theorem drain_mem (l : List DirInfo) :
    ∀ fs, ∀ sr ∈ (drain fs l).1, ∃ i ∈ l, i.regular = true ∧
      parseRef i.name = .ok sr.ref ∧ sr.size = i.size ∧
      (i.size ≠ 0 ∨ sr.ref.isEmpty = true) := by
  induction l with
  | nil => intro fs sr hsr; rw [drain_nil] at hsr; simp at hsr
  | cons i rest ih =>
    intro fs sr hsr
    rw [drain_cons] at hsr
    by_cases hreg : i.regular = false
    · rw [if_pos hreg] at hsr
      rcases ih fs sr hsr with ⟨j, hj, hprops⟩
      exact ⟨j, List.mem_cons_of_mem i hj, hprops⟩
    · rw [if_neg hreg] at hsr
      have hreg' : i.regular = true := by
        revert hreg; cases i.regular <;> simp
      rcases hp : parseRef i.name with e | ref
      · rw [hp] at hsr; simp at hsr
      · rw [hp] at hsr
        dsimp only at hsr
        rcases h1 : removeIfInvalid fs i.size ref i.cOk i.rOk with ⟨fs1, res⟩
        rw [h1] at hsr
        cases res with
        | error e => simp at hsr
        | ok b =>
          cases b with
          | true =>
            dsimp only at hsr
            rcases ih fs1 sr hsr with ⟨j, hj, hprops⟩
            exact ⟨j, List.mem_cons_of_mem i hj, hprops⟩
          | false =>
            dsimp only at hsr
            rcases List.mem_cons.mp hsr with heq | htail
            · subst heq
              refine ⟨i, List.mem_cons_self i rest, hreg', hp, rfl, ?_⟩
              have := removeIfInvalid_ok_false fs i.size ref i.cOk i.rOk
                (by rw [h1])
              simpa using this
            · rcases ih fs1 sr htail with ⟨j, hj, hprops⟩
              exact ⟨j, List.mem_cons_of_mem i hj, hprops⟩

theorem drain_append (l1 l2 : List DirInfo)
    (h : ∀ j ∈ l1, infoFatal j = false) (fs : FS) :
    drain fs (l1 ++ l2) =
      ((drain fs l1).1 ++ (drain fs l2).1, (drain fs l2).2) := by
  induction l1 generalizing fs with
  | nil => rw [List.nil_append, drain_nil]; simp
  | cons j l1' ih =>
    have hj := h j (List.mem_cons_self j l1')
    have htail : ∀ k ∈ l1', infoFatal k = false :=
      fun k hk => h k (List.mem_cons_of_mem j hk)
    rw [List.cons_append, drain_cons, drain_cons]
    by_cases hreg : j.regular = false
    · rw [if_pos hreg, if_pos hreg]
      exact ih htail fs
    · rw [if_neg hreg, if_neg hreg]
      have hreg' : j.regular = true := by
        revert hreg; cases j.regular <;> simp
      rcases hp : parseRef j.name with e | ref
      · exfalso
        simp [infoFatal, hreg', hp] at hj
      · dsimp only
        have hok := removeIfInvalid_not_fatal fs j ref hj hreg' hp
        rcases h1 : removeIfInvalid fs j.size ref j.cOk j.rOk with ⟨fs1, res⟩
        rw [h1] at hok
        simp only at hok
        cases res with
        | error e => rcases hok with h' | h' <;> simp at h'
        | ok b =>
          cases b with
          | true =>
            dsimp only
            rw [ih htail fs1, drain_fs_irrel l2 fs fs1]
          | false =>
            dsimp only
            rw [ih htail fs1, drain_fs_irrel l2 fs fs1]
            simp

/-- C8: draining the blob iterator (a) yields blobs in ascending
canonical-ref (filename) order — stated for listings whose regular entries
carry canonical names, which the blobs/ invariant guarantees; (b) yields only
items coming from regular entries that pass the invalid-blob check (healed
entries are silently skipped, non-regular entries never surface); and (c) on
the first regular entry whose filename fails ref parsing, the iterator error
is set and no further items are yielded. -/
theorem iterateBlobs_spec (fs : FS) (entries : List DirInfo) :
    ((∀ i ∈ entries, i.regular = true → isCanonical i.name = true) →
      List.Sorted (fun a b : String => a ≤ b)
        (((iterateBlobs fs entries).1).map (fun sr => sr.ref.toStr))) ∧
    (∀ sr ∈ (iterateBlobs fs entries).1, ∃ i ∈ entries, i.regular = true ∧
      parseRef i.name = .ok sr.ref ∧ sr.size = i.size ∧
      (i.size ≠ 0 ∨ sr.ref.isEmpty = true)) ∧
    (∀ l1 i l2 e, List.insertionSort infoLe entries = l1 ++ i :: l2 →
      (∀ j ∈ l1, infoFatal j = false) → i.regular = true →
      parseRef i.name = .error e →
      iterateBlobs fs entries = ((drain fs l1).1, some e)) := by
  refine ⟨?_, ?_, ?_⟩
  · intro hcan
    have hsorted : List.Sorted infoLe (List.insertionSort infoLe entries) :=
      List.sorted_insertionSort infoLe entries
    have hnames : List.Sorted (fun a b : String => a ≤ b)
        ((List.insertionSort infoLe entries).map DirInfo.name) :=
      List.pairwise_map.mpr (hsorted.imp (fun hab => hab))
    have hsub := drain_names_sublist (List.insertionSort infoLe entries)
      (fun i hi hr => hcan i ((List.mem_insertionSort infoLe).mp hi) hr) fs
    exact hnames.sublist hsub
  · intro sr hsr
    rcases drain_mem (List.insertionSort infoLe entries) fs sr hsr with
      ⟨i, hi, hprops⟩
    exact ⟨i, (List.mem_insertionSort infoLe).mp hi, hprops⟩
  · intro l1 i l2 e hsort hfr hreg hp
    unfold iterateBlobs
    rw [hsort, drain_append l1 (i :: l2) hfr fs, drain_cons,
      if_neg (by simp [hreg]), hp]
    simp

/-- C8 witness. -/
theorem iterateBlobs_spec_witness :
    iterateBlobs ⟨[]⟩ [⟨"bad", 5, true, true, true⟩] =
      ([], some Err.parseErr) := by
  have h := (iterateBlobs_spec ⟨[]⟩ [⟨"bad", 5, true, true, true⟩]).2.2
    [] ⟨"bad", 5, true, true, true⟩ [] Err.parseErr rfl (by simp) rfl (by decide)
  simpa [drain_nil] using h

theorem foldl_add_sum (f : DirEntry → Nat) (l : List DirEntry) :
    ∀ a, l.foldl (fun acc e => acc + f e) a = a + (l.map f).sum := by
  induction l with
  | nil => intro a; simp
  | cons e rest ih =>
    intro a
    simp [ih, Nat.add_assoc]

/-- C7: when the sorted collected entry list fits within the fan-out `F`,
`storeDir` emits exactly one additional schema blob beyond the children's own
emissions — an `InlineList<DirEntry>` of the sorted entries — and returns the
summary `DirEntry` whose `Count` is the sum over entries of `count + 1` and
whose `Size` is the sum of the entries' sizes. -/
theorem storeDir_small_branch (F : Nat) (cs : List FTree)
    (h : (sortEntries (collectF F cs).2).length ≤ F) :
    (storeDirF F cs).1 =
      (collectF F cs).1 ++
        [SchemaObj.inlineList (sortEntries (collectF F cs).2)] ∧
    (storeDirF F cs).2.1 =
      storeSchemaRef (SchemaObj.inlineList (sortEntries (collectF F cs).2)) ∧
    (storeDirF F cs).2.2 =
      ⟨(storeSchemaRef (SchemaObj.inlineList
          (sortEntries (collectF F cs).2))).ref,
        ((sortEntries (collectF F cs).2).map DirEntry.size).sum,
        ((sortEntries (collectF F cs).2).map (fun e => e.count + 1)).sum,
        ""⟩ := by
  rw [storeDirF]
  simp only [if_pos h, storeDirList, foldl_add_sum, Nat.zero_add]
  exact ⟨trivial, trivial, trivial⟩

/-- C7 witness. -/
theorem storeDir_small_branch_witness :
    (storeDirF 2 [FTree.file "b" [2, 2], FTree.file "a" [1]]).2.2.count = 2 ∧
    (storeDirF 2 [FTree.file "b" [2, 2], FTree.file "a" [1]]).2.2.size = 3 ∧
    (storeDirF 2 [FTree.file "b" [2, 2], FTree.file "a" [1]]).1 =
      [SchemaObj.inlineList
        [⟨hashBytes [1], 1, 0, "a"⟩, ⟨hashBytes [2, 2], 2, 0, "b"⟩]] := by
  have hcol : collectF 2 [FTree.file "b" [2, 2], FTree.file "a" [1]] =
      ([], [⟨hashBytes [2, 2], 2, 0, "b"⟩, ⟨hashBytes [1], 1, 0, "a"⟩]) := by
    simp +decide [collectF, storeEntry, FTree.name]
  have hsort : sortEntries
      [(⟨hashBytes [2, 2], 2, 0, "b"⟩ : DirEntry), ⟨hashBytes [1], 1, 0, "a"⟩] =
      [⟨hashBytes [1], 1, 0, "a"⟩, ⟨hashBytes [2, 2], 2, 0, "b"⟩] := by
    simp +decide [sortEntries, List.insertionSort, List.orderedInsert]
  have h := storeDir_small_branch 2 [FTree.file "b" [2, 2], FTree.file "a" [1]]
    (by rw [hcol]; rw [show ([], [(⟨hashBytes [2, 2], 2, 0, "b"⟩ : DirEntry),
      ⟨hashBytes [1], 1, 0, "a"⟩]).2 = [⟨hashBytes [2, 2], 2, 0, "b"⟩,
      ⟨hashBytes [1], 1, 0, "a"⟩] from rfl, hsort]; decide)
  rcases h with ⟨h1, h2, h3⟩
  rw [hcol] at h1 h3
  refine ⟨?_, ?_, ?_⟩
  · rw [h3]
    simp only [hsort]
    decide
  · rw [h3]
    simp only [hsort]
    decide
  · rw [h1]
    simp only [hsort]
    rfl

theorem joinPass_log_zero (F : Nat) :
    ∀ n (level : List ListNode), level.length ≤ n → ∀ refs m,
      SchemaObj.listNode m ∈ (joinPass F level refs).1 →
      m.count = 0 ∧ m.size = 0 := by
  intro n
  induction n with
  | zero =>
    intro level h refs m hm
    have hnil : level = [] := List.length_eq_zero.mp (Nat.le_zero.mp h)
    subst hnil
    simp [joinPass] at hm
  | succ n ih =>
    intro level h refs m hm
    match level with
    | [] => simp [joinPass] at hm
    | l :: ls =>
      rw [joinPass] at hm
      simp only [List.mem_cons] at hm
      rcases hm with hm | hm
      · cases hm
        exact ⟨rfl, rfl⟩
      · have hd : ((l :: ls).drop (max F 1)).length ≤ n := by
          simp only [List.length_drop, List.length_cons]
          simp only [List.length_cons] at h
          omega
        exact ih _ hd _ m hm

theorem joinLevels_log_zero (F : Nat) :
    ∀ n (level : List ListNode), level.length ≤ n → ∀ refs m,
      SchemaObj.listNode m ∈ (joinLevels F level refs).1 →
      m.count = 0 ∧ m.size = 0 := by
  intro n
  induction n with
  | zero =>
    intro level h refs m hm
    have hnil : level = [] := List.length_eq_zero.mp (Nat.le_zero.mp h)
    subst hnil
    rw [joinLevels] at hm
    simp at hm
  | succ n ih =>
    intro level h refs m hm
    rw [joinLevels] at hm
    by_cases hg : level.length ≤ 1 ∨ F ≤ 1
    · rw [dif_pos hg] at hm
      simp at hm
    · rw [dif_neg hg] at hm
      simp only [List.mem_append] at hm
      push_neg at hg
      rcases hm with hm | hm
      · exact joinPass_log_zero F level.length level le_rfl refs m hm
      · have hlt := joinPass_level_len_lt F level refs (by omega) (by omega)
        exact ih (joinPass F level refs).2.1 (by omega)
          (joinPass F level refs).2.2 m hm

/-- C10: when the collected entry list is strictly longer than the fan-out,
`storeDir` builds interior `List` nodes; the stats aggregation there is
TODO-disabled in the source, so the returned root `DirEntry` has `Count = 0`
and `Size = 0`, and every interior `List` node emitted by the
`storeDirJoin` rounds carries zero `Count` and `Size`. -/
theorem storeDir_large_branch (F : Nat) (cs : List FTree)
    (h : F < (sortEntries (collectF F cs).2).length) :
    (storeDirF F cs).2.2.count = 0 ∧
    (storeDirF F cs).2.2.size = 0 ∧
    (∀ m, SchemaObj.listNode m ∈
        (joinLevels F (leafPass F [] (sortEntries (collectF F cs).2)).2.1
          (leafPass F [] (sortEntries (collectF F cs).2)).2.2).1 →
      m.count = 0 ∧ m.size = 0) := by
  refine ⟨?_, ?_, ?_⟩
  · rw [storeDirF]
    simp only [if_neg (not_le.mpr h)]
  · rw [storeDirF]
    simp only [if_neg (not_le.mpr h)]
  · intro m hm
    exact joinLevels_log_zero F _ _ le_rfl _ m hm

/-- C10 witness. -/
theorem storeDir_large_branch_witness :
    (storeDirF 2 [FTree.file "a" [1], FTree.file "b" [2], FTree.file "c" [3],
        FTree.file "d" [4], FTree.file "e" [5]]).2.2.count = 0 ∧
    (storeDirF 2 [FTree.file "a" [1], FTree.file "b" [2], FTree.file "c" [3],
        FTree.file "d" [4], FTree.file "e" [5]]).2.2.size = 0 := by
  have h := storeDir_large_branch 2 [FTree.file "a" [1], FTree.file "b" [2],
    FTree.file "c" [3], FTree.file "d" [4], FTree.file "e" [5]] (by
      have hcol : collectF 2 [FTree.file "a" [1], FTree.file "b" [2],
          FTree.file "c" [3], FTree.file "d" [4], FTree.file "e" [5]] =
          ([], [⟨hashBytes [1], 1, 0, "a"⟩, ⟨hashBytes [2], 1, 0, "b"⟩,
            ⟨hashBytes [3], 1, 0, "c"⟩, ⟨hashBytes [4], 1, 0, "d"⟩,
            ⟨hashBytes [5], 1, 0, "e"⟩]) := by
        simp +decide [collectF, storeEntry, FTree.name]
      rw [hcol]
      simp +decide [sortEntries, List.insertionSort, List.orderedInsert])
  exact ⟨h.1, h.2.1⟩

theorem sorted_perm_nodup_eq :
    ∀ (l1 l2 : List DirEntry), l1.Perm l2 → l1.Sorted nameLe →
      l2.Sorted nameLe → (l1.map DirEntry.name).Nodup → l1 = l2 := by
  intro l1
  induction l1 with
  | nil =>
    intro l2 hp _ _ _
    exact hp.nil_eq
  | cons a t1 ih =>
    intro l2 hp hs1 hs2 hnd
    cases l2 with
    | nil =>
      have := hp.length_eq
      simp at this
    | cons b t2 =>
      have hab : a = b := by
        have ha2 : a ∈ b :: t2 := hp.mem_iff.mp (List.mem_cons_self a t1)
        rcases List.mem_cons.mp ha2 with h | ha2
        · exact h
        · have hba : nameLe b a := List.rel_of_sorted_cons hs2 a ha2
          have hb1 : b ∈ a :: t1 := hp.mem_iff.mpr (List.mem_cons_self b t2)
          rcases List.mem_cons.mp hb1 with h | hb1
          · exact h.symm
          · have habn : nameLe a b := List.rel_of_sorted_cons hs1 b hb1
            have hn : a.name = b.name := le_antisymm habn hba
            exfalso
            simp only [List.map_cons, List.nodup_cons] at hnd
            exact hnd.1 (hn ▸ List.mem_map_of_mem DirEntry.name hb1)
      subst hab
      have ht : t1.Perm t2 := hp.cons_inv
      have h1 := (List.sorted_cons.mp hs1).2
      have h2 := (List.sorted_cons.mp hs2).2
      have hnd' : (t1.map DirEntry.name).Nodup := by
        simp only [List.map_cons, List.nodup_cons] at hnd
        exact hnd.2
      rw [ih t2 ht h1 h2 hnd']

theorem sortEntries_sorted (l : List DirEntry) :
    (sortEntries l).Sorted nameLe :=
  List.sorted_insertionSort nameLe l

theorem sortEntries_perm (l : List DirEntry) : (sortEntries l).Perm l :=
  List.perm_insertionSort nameLe l

theorem sortEntries_eq_of_perm (l1 l2 : List DirEntry) (hp : l1.Perm l2)
    (hnd : (l1.map DirEntry.name).Nodup) :
    sortEntries l1 = sortEntries l2 := by
  refine sorted_perm_nodup_eq _ _
    ((sortEntries_perm l1).trans (hp.trans (sortEntries_perm l2).symm))
    (sortEntries_sorted l1) (sortEntries_sorted l2) ?_
  have hmp : ((sortEntries l1).map DirEntry.name).Perm (l1.map DirEntry.name) :=
    (sortEntries_perm l1).map DirEntry.name
  exact hmp.nodup_iff.mpr hnd

theorem canonList_eq_map (cs : List FTree) : canonList cs = cs.map FTree.canon := by
  induction cs with
  | nil => rfl
  | cons c rest ih => rw [canonList, ih, List.map_cons]

theorem FTree.name_canon (t : FTree) : t.canon.name = t.name := by
  cases t with
  | file n c => rfl
  | dir n cs => rfl

theorem storeEntry_name (F : Nat) (t : FTree) : (storeEntry F t).2.name = t.name := by
  cases t with
  | file n c =>
    rw [storeEntry]
    rfl
  | dir n cs =>
    rw [storeEntry]
    rfl

theorem okNamesList_mem (cs : List FTree) (hok : okNamesList cs = true) :
    ∀ c ∈ cs, c.okNames = true := by
  induction cs with
  | nil => intro c hc; simp at hc
  | cons d rest ih =>
    intro c hc
    rw [okNamesList, Bool.and_eq_true] at hok
    rcases List.mem_cons.mp hc with h | h
    · exact h ▸ hok.1
    · exact ih hok.2 c h

theorem collectF_snd_eq (F : Nat) (cs : List FTree) :
    (collectF F cs).2 =
      (cs.filter (fun c => !(c.name == ".cas"))).map
        (fun c => (storeEntry F c).2) := by
  induction cs with
  | nil => simp [collectF]
  | cons c rest ih =>
    rw [collectF]
    by_cases h : c.name = ".cas"
    · simp [h, ih]
    · simp [h, ih]

theorem collectF_fst_eq (F : Nat) (cs : List FTree) :
    (collectF F cs).1 =
      ((cs.filter (fun c => !(c.name == ".cas"))).map
        (fun c => (storeEntry F c).1)).flatten := by
  induction cs with
  | nil => simp [collectF]
  | cons c rest ih =>
    rw [collectF]
    by_cases h : c.name = ".cas"
    · simp [h, ih]
    · simp [h, ih]

theorem storeDirF_snd_of_base (F : Nat) (cs cs' : List FTree)
    (h : sortEntries (collectF F cs).2 = sortEntries (collectF F cs').2) :
    (storeDirF F cs).2 = (storeDirF F cs').2 := by
  rw [storeDirF, storeDirF, h]
  split <;> rfl

theorem storeEntry_snd_canon (F : Nat) :
    ∀ (k : Nat) (t : FTree), sizeOf t ≤ k → t.okNames = true →
      (storeEntry F t.canon).2 = (storeEntry F t).2 := by
  intro k
  induction k with
  | zero =>
    intro t hk hok
    exfalso
    cases t <;> simp at hk
  | succ k ih =>
    intro t hk hok
    cases t with
    | file n c => rfl
    | dir n cs =>
      rw [FTree.okNames, Bool.and_eq_true] at hok
      have hokl := hok.2
      have hnodup : (cs.map FTree.name).Nodup := of_decide_eq_true hok.1
      have hsz : ∀ c ∈ cs, sizeOf c ≤ k := by
        intro c hc
        have h1 : sizeOf c < sizeOf cs := List.sizeOf_lt_of_mem hc
        have h2 : sizeOf cs < sizeOf (FTree.dir n cs) := by
          simp
        omega
      have hmapeq :
          ((canonList cs).filter (fun c => !(c.name == ".cas"))).map
            (fun c => (storeEntry F c).2) =
          (cs.filter (fun c => !(c.name == ".cas"))).map
            (fun c => (storeEntry F c).2) := by
        rw [canonList_eq_map, List.filter_map, List.map_map]
        simp only [Function.comp_def, FTree.name_canon]
        apply List.map_congr_left
        intro c hc
        exact ih c (hsz c (List.mem_of_mem_filter hc))
          (okNamesList_mem cs hokl c (List.mem_of_mem_filter hc))
      have hmain : (storeDirF F
          (List.insertionSort treeNameLe (canonList cs))).2 =
          (storeDirF F cs).2 := by
        apply storeDirF_snd_of_base
        rw [collectF_snd_eq, collectF_snd_eq]
        have hperm :
            (((List.insertionSort treeNameLe (canonList cs)).filter
              (fun c => !(c.name == ".cas"))).map
                (fun c => (storeEntry F c).2)).Perm
            ((cs.filter (fun c => !(c.name == ".cas"))).map
              (fun c => (storeEntry F c).2)) := by
          have h1 : (List.insertionSort treeNameLe (canonList cs)).Perm
              (canonList cs) :=
            List.perm_insertionSort treeNameLe (canonList cs)
          have h2 := (h1.filter (fun c => !(c.name == ".cas"))).map
            (fun c => (storeEntry F c).2)
          rw [hmapeq] at h2
          exact h2
        have hnd : (((cs.filter (fun c => !(c.name == ".cas"))).map
            (fun c => (storeEntry F c).2)).map DirEntry.name).Nodup := by
          rw [List.map_map]
          have heq : ((cs.filter (fun c => !(c.name == ".cas"))).map
              (DirEntry.name ∘ fun c => (storeEntry F c).2)) =
              ((cs.filter (fun c => !(c.name == ".cas"))).map FTree.name) := by
            apply List.map_congr_left
            intro c hc
            exact storeEntry_name F c
          rw [heq]
          exact hnodup.sublist ((List.filter_sublist cs).map FTree.name)
        exact (sortEntries_eq_of_perm _ _ hperm.symm hnd).symm
      rw [FTree.canon, storeEntry, storeEntry]
      simp only [hmain]

theorem dirRootRef_eq_entry (F : Nat) (t : FTree) :
    dirRootRef F t = (storeEntry F t).2.ref := by
  cases t with
  | file n c =>
    rw [dirRootRef, storeEntry]
  | dir n cs =>
    rw [dirRootRef, storeEntry]

/-- C6: the root ref produced by the directory importer is independent of the
filesystem enumeration order: two trees with pairwise-distinct sibling names
and the same canonical form (same names, same file contents, nodewise up to
ordering of children) produce the same root ref, for any fan-out. -/
theorem storeDir_enumeration_invariant (F : Nat) (t1 t2 : FTree)
    (h1 : t1.okNames = true) (h2 : t2.okNames = true)
    (hc : t1.canon = t2.canon) :
    dirRootRef F t1 = dirRootRef F t2 := by
  rw [dirRootRef_eq_entry, dirRootRef_eq_entry]
  rw [← storeEntry_snd_canon F (sizeOf t1) t1 le_rfl h1]
  rw [← storeEntry_snd_canon F (sizeOf t2) t2 le_rfl h2]
  rw [hc]

/-- C6 witness: the same two-file directory enumerated in two orders. -/
theorem storeDir_enumeration_invariant_witness :
    dirRootRef 1024 (FTree.dir "d" [FTree.file "b" [2], FTree.file "a" [1]]) =
    dirRootRef 1024 (FTree.dir "d" [FTree.file "a" [1], FTree.file "b" [2]]) := by
  apply storeDir_enumeration_invariant
  · simp +decide [FTree.okNames, okNamesList, FTree.name]
  · simp +decide [FTree.okNames, okNamesList, FTree.name]
  · simp +decide [FTree.canon, canonList, List.insertionSort, List.orderedInsert]
